import Mathlib

/-!
Verification of the Andaman Islands trip-planner core against its
specification.

The definitions below are a shallow embedding of the JavaScript source of
the repository (the itinerary scheduler `generateItineraryDays` and the day
mutation helpers of `src/App.jsx`, first revision, lines 43-144 and 211-347,
and the mood-inference heuristic `inferMoods` of the unnamed source part).
JavaScript numbers are modelled as exact rationals (`ℚ`), JavaScript arrays
as Lean lists, and the `type` tag of itinerary items as an inductive type.
`Array.prototype.sort` with the comparator `(a, b) => key a - key b` is
required to be a stable sort by ECMAScript 2019; it is embedded as the
bucketed concatenation of filters over the (finite) range of the key, which
is exactly that stable sort.
-/

namespace Andaman

/-! ## String helpers

JavaScript `String.prototype.includes` (substring containment), used by the
best-time ranking and the mood-inference keyword rules. -/

/-- Does `hay` start with `needle`? (char-list version) -/
def charsStartWith : List Char → List Char → Bool
  | [], _ => true
  | _ :: _, [] => false
  | a :: as, b :: bs => a == b && charsStartWith as bs

/-- Does `hay` contain `needle` as a contiguous substring? (char-list version) -/
def charsContain (needle : List Char) : List Char → Bool
  | [] => needle.isEmpty
  | c :: t => charsStartWith needle (c :: t) || charsContain needle t

/-- JavaScript `hay.includes(needle)`. -/
def strContains (hay needle : String) : Bool :=
  charsContain needle.data hay.data

/-- JavaScript `s.toLowerCase()` (character-wise lowering). -/
def strToLower (s : String) : String :=
  ⟨s.data.map Char.toLower⟩

/-! ## Data model -/

/-- An itinerary `Item`, a tagged variant exactly as the `type` field of the
source's item objects.  The `departure` tag occurs in the repository's item
vocabulary (a later revision's UI checks for it) but, as proved below, is
never produced by the scheduler embedded here. -/
inductive Item where
  | arrival (name : String)
  | transfer (name : String)
  | ferry (name : String) (time : String)
  | location (ref : String) (name : String) (durationHrs : ℚ) (bestTimes : List String)
  | departure (name : String)
deriving DecidableEq, Repr

/-- The JavaScript `type` tag of an item. -/
def Item.type : Item → String
  | .arrival _ => "arrival"
  | .transfer _ => "transfer"
  | .ferry _ _ => "ferry"
  | .location _ _ _ _ => "location"
  | .departure _ => "departure"

/-- A `Day` record: island affiliation, ordered items, transport mode.
The source's day objects have exactly these fields (there is no `locked`
field in this revision). -/
structure Day where
  island : String
  items : List Item
  transport : String
deriving DecidableEq, Repr

/-- A catalog `Location` record.  `durationHrs` is `Option ℚ`: `none` stands
for a missing/non-finite `durationHrs` in the raw record (the source guards
every read with `Number.isFinite(x.durationHrs) ? x.durationHrs : 2` or
`x.durationHrs ?? 2`, both of which the `Option.getD 2` below captures).
`interest` is the free-text field read by `inferMoods`. -/
structure Location where
  id : String
  island : String
  name : String
  durationHrs : Option ℚ
  bestTimes : List String
  interest : String
deriving DecidableEq, Repr

/-- Effective duration of a location (default 2 hours). -/
def durOf (l : Location) : ℚ := l.durationHrs.getD 2

/-- An `Activity` (add-on) record; `price` is `Option ℚ` (`safeNum` maps a
missing/non-numeric price to 0). -/
structure Activity where
  id : String
  name : String
  price : Option ℚ
deriving DecidableEq, Repr

/-! ## `orderByBestTime` -/

/-- The time-of-day rank of the source's `orderByBestTime`:
morning/sunrise 0, afternoon 1, evening/sunset 2, other 3. -/
def rank (it : Location) : Nat :=
  let arr := it.bestTimes.map strToLower
  if arr.any (fun t => strContains t "morning" || strContains t "sunrise") then 0
  else if arr.any (fun t => strContains t "afternoon") then 1
  else if arr.any (fun t => strContains t "evening" || strContains t "sunset") then 2
  else 3

/-- `[...items].sort((a, b) => rank a - rank b)` — the ES2019-stable sort by
`rank`, realised as the concatenation of the rank classes in ascending
order (`rank` only takes the values 0, 1, 2, 3). -/
def orderByBestTime (items : List Location) : List Location :=
  ([0, 1, 2, 3] : List Nat).flatMap (fun k => items.filter (fun it => rank it == k))

/-! ## Island order -/

/-- The canonical island priority list of this revision. -/
def DEFAULT_ISLANDS : List String := ["Port Blair", "Havelock", "Neil", "Long Island", "Diglipur"]

/-- JavaScript `Array.prototype.indexOf`: index of the first occurrence,
`-1` when absent. -/
def indexOfAux (s : String) : List String → Int
  | [] => -1
  | h :: t =>
    if h == s then 0
    else
      let r := indexOfAux s t
      if r == -1 then -1 else r + 1

/-- `DEFAULT_ISLANDS.indexOf(island)`. -/
def islandIdx (s : String) : Int := indexOfAux s DEFAULT_ISLANDS

/-- `Object.keys` of the island grouping: the islands of the selection in
first-occurrence order. -/
def firstOccur : List String → List String
  | [] => []
  | x :: t => x :: (firstOccur t).filter (fun y => y != x)

/-- All values `islandIdx` can take (`DEFAULT_ISLANDS` has five entries). -/
def keyRange : List Int := [-1, 0, 1, 2, 3, 4]

/-- `keys.sort((a, b) => DEFAULT_ISLANDS.indexOf(a) - DEFAULT_ISLANDS.indexOf(b))`
— the ES2019-stable sort by `islandIdx`, realised as the concatenation of
the key classes in ascending key order.  Note that an island absent from
`DEFAULT_ISLANDS` has key `-1` and therefore sorts first. -/
def sortIslands (keys : List String) : List String :=
  keyRange.flatMap (fun k => keys.filter (fun i => islandIdx i == k))

/-- The island visiting order of `generateItineraryDays`: sort the distinct
islands of the selection; if `startFromPB` and "Port Blair" is present,
move it to the front.  (No injection happens when it is absent.) -/
def islandOrder (sel : List Location) (startFromPB : Bool) : List String :=
  let order := sortIslands (firstOccur (sel.map (·.island)))
  if startFromPB ∧ order.contains "Port Blair" then
    "Port Blair" :: order.filter (fun x => x != "Port Blair")
  else order

/-! ## The scheduler `generateItineraryDays` -/

/-- The location-visit item pushed for a bucketed location
(`{type:"location", ref, name, durationHrs: x.durationHrs ?? 2, bestTimes}`). -/
def locItem (x : Location) : Item :=
  .location x.id x.name (x.durationHrs.getD 2) x.bestTimes

/-- The derived transport mode of a closed content day. -/
def dayTransport (island : String) (bucket : List Location) : String :=
  if bucket.length ≥ 3 then "Day Cab"
  else if island == "Havelock" || island == "Neil" then "Scooter"
  else "Point-to-Point"

/-- A closed content day built from a bucket. -/
def mkContentDay (island : String) (bucket : List Location) : Day :=
  ⟨island, bucket.map locItem, dayTransport island bucket⟩

/-- The source's `flushDay` closure: close the current bucket as a day.
If the bucket holds exactly one stop and locations remain in the island's
queue, pull one more from the head of the queue into the bucket first
(single-stop avoidance, applied at most once).  Returns the emitted day
(if any) together with the remaining queue; the `Bool` is ghost
instrumentation recording whether the single-stop lookahead fired — it does
not influence the emitted day. -/
def flushDay (island : String) (bucket : List Location) (locs : List Location) :
    Option (Day × Bool) × List Location :=
  match bucket with
  | [] => (none, locs)
  | [b0] =>
    match locs with
    | [] => (some (mkContentDay island [b0], false), [])
    | y :: t => (some (mkContentDay island [b0, y], true), t)
  | _ => (some (mkContentDay island bucket, false), locs)

theorem flushDay_snd_length_le (island : String) (bucket locs : List Location) :
    (flushDay island bucket locs).2.length ≤ locs.length := by
  unfold flushDay
  rcases bucket with _ | ⟨b0, _ | ⟨b1, bs⟩⟩ <;> rcases locs with _ | ⟨y, t⟩ <;> simp

/-- The source's `while (locs.length)` greedy bucketing loop: shift the next
location; if the bucket already has 4 stops or adding the location would
push the accumulated duration over 7 hours, flush the bucket first (which
may consume one more location via the lookahead); then start/extend the
bucket with the shifted location.  A final flush closes the last bucket. -/
def bucketLoop (island : String) (bucket : List Location) (timeUsed : ℚ) :
    List Location → List (Day × Bool)
  | [] => ((flushDay island bucket []).1).toList
  | x :: rest =>
    if bucket.length ≥ 4 ∨ timeUsed + durOf x > 7 then
      match bucket with
      | [] => bucketLoop island [x] (durOf x) rest
      | [b0] =>
        match rest with
        | [] => (mkContentDay island [b0], false) :: bucketLoop island [x] (durOf x) []
        | y :: t => (mkContentDay island [b0, y], true) :: bucketLoop island [x] (durOf x) t
      | b => (mkContentDay island b, false) :: bucketLoop island [x] (durOf x) rest
    else
      bucketLoop island (bucket ++ [x]) (timeUsed + durOf x) rest

/-- The loop body satisfies exactly the source's recurrence: on over-cap,
first `flushDay` the current bucket against the remaining queue (possibly
consuming its head via the lookahead), then restart the bucket with the
shifted location. -/
theorem bucketLoop_flush_step (island : String) (bucket : List Location) (timeUsed : ℚ)
    (x : Location) (rest : List Location) :
    bucketLoop island bucket timeUsed (x :: rest) =
      if bucket.length ≥ 4 ∨ timeUsed + durOf x > 7 then
        ((flushDay island bucket rest).1).toList ++
          bucketLoop island [x] (durOf x) (flushDay island bucket rest).2
      else
        bucketLoop island (bucket ++ [x]) (timeUsed + durOf x) rest := by
  rcases bucket with _ | ⟨b0, _ | ⟨b1, bs⟩⟩
  · rw [bucketLoop.eq_2]
    simp [flushDay]
  · rcases rest with _ | ⟨y, t⟩
    · rw [bucketLoop.eq_3]
      simp [flushDay]
    · rw [bucketLoop.eq_4]
      simp [flushDay]
  · rw [bucketLoop.eq_5 _ _ _ _ _ (by simp) (by intro b0 h; simp at h)]
    simp [flushDay]

/-- The ferry-only transfer day emitted between two consecutive islands. -/
def ferryDayOf (island next : String) : Day :=
  ⟨island, [Item.ferry ("Ferry " ++ island ++ " → " ++ next) "08:00–09:30"], "—"⟩

/-- The source's `order.forEach((island, idx) => ...)`: bucket each island's
selected locations (ordered by best time) into days, and append a ferry day
when a next island follows. -/
def islandsLoop (sel : List Location) : List String → List (Day × Bool)
  | [] => []
  | island :: rest =>
    bucketLoop island [] 0 (orderByBestTime (sel.filter (fun l => l.island == island))) ++
      (match rest with
       | [] => []
       | next :: _ => [(ferryDayOf island next, false)]) ++
      islandsLoop sel rest

/-- The mandatory Day 1 (airport arrival in Port Blair). -/
def arrivalDay : Day :=
  ⟨"Port Blair",
   [Item.arrival "Arrival - Veer Savarkar Intl. Airport (IXZ)",
    Item.transfer "Airport → Hotel (Port Blair)"],
   "Point-to-Point"⟩

/-- `generateItineraryDays`, instrumented: each day carries the ghost flag
of `flushDay` (whether the single-stop lookahead completed it). -/
def generateItineraryDaysFlagged (selectedLocs : List Location) (startFromPB : Bool) :
    List (Day × Bool) :=
  (arrivalDay, false) ::
    (if selectedLocs.isEmpty then []
     else islandsLoop selectedLocs (islandOrder selectedLocs startFromPB))

/-- The scheduler of the source (`App.jsx` lines 55-144): Day 1 is always
the Port Blair arrival day; an empty selection returns immediately;
otherwise the selected locations are grouped by island, the islands are
ordered, and each island's locations are bucketed into days with ferry days
in between.  This is a total function on lists — no code path of the
source throws for array inputs. -/
def generateItineraryDays (selectedLocs : List Location) (startFromPB : Bool) : List Day :=
  (generateItineraryDaysFlagged selectedLocs startFromPB).map Prod.fst

/-! ## Day mutation API -/

/-- `deleteDay`: `copy.splice(index, 1)` — removes the day at `index`
unconditionally (no lock check, no minimum-length check in the function;
the UI separately disables the button when at most one day remains). -/
def deleteDay (days : List Day) (index : Nat) : List Day :=
  days.eraseIdx index

/-- `setTransportForDay`: `copy[i] = { ...copy[i], transport: mode }` —
overwrites the transport of the day at `i` unconditionally.  (For an
out-of-range `i` the JavaScript would create a sparse entry; that case is
modelled as a no-op and is outside every claim's scope.) -/
def setTransportForDay (days : List Day) (i : Nat) (mode : String) : List Day :=
  match days.get? i with
  | some d => days.set i { d with transport := mode }
  | none => days

/-- `moveItem(fromDay, itemIdx, dir)`: if `fromDay + dir` is out of bounds,
return the itinerary unchanged; otherwise splice the item out of day
`fromDay` at `itemIdx` and push it onto day `fromDay + dir`.  The two
junk cases outside every claim's scope are modelled as `none`:
`fromDay` itself out of bounds (the JavaScript throws a `TypeError` there)
and `itemIdx` out of bounds (the JavaScript would push `undefined`). -/
def moveItem (days : List Day) (fromDay : Nat) (itemIdx : Nat) (dir : Int) :
    Option (List Day) :=
  let toDay : Int := (fromDay : Int) + dir
  if toDay < 0 ∨ (days.length : Int) ≤ toDay then some days
  else
    match days.get? fromDay with
    | none => none
    | some dayF =>
      match dayF.items.get? itemIdx with
      | none => none
      | some item =>
        let days1 := days.set fromDay { dayF with items := dayF.items.eraseIdx itemIdx }
        match days1.get? toDay.toNat with
        | none => none
        | some dayT => some (days1.set toDay.toNat { dayT with items := dayT.items ++ [item] })

/-! ## Cost model -/

/-- Base ferry rate per passenger per leg. -/
def FERRY_BASE_ECON : ℚ := 1500

/-- The `FERRY_CLASS_MULT` lookup table; `none` models an absent key (the
call site applies `?? 1`). -/
def FERRY_CLASS_MULT (cls : String) : Option ℚ :=
  if cls == "Economy" then some 1
  else if cls == "Deluxe" then some (7 / 5)
  else if cls == "Luxury" then some (19 / 10)
  else none

/-- The pricing-relevant component state: the current itinerary and the
user-chosen pricing options. -/
structure AppState where
  days : List Day
  adults : Int
  infants : Int
  ferryClass : String
  addonIds : List String
  activities : List Activity

/-- `ferryLegCount`: total count of ferry-type items across the itinerary. -/
def ferryLegCount (s : AppState) : Nat :=
  s.days.foldl (fun acc d => acc + (d.items.filter (fun i => i.type == "ferry")).length) 0

/-- `ferryTotal = ferryLegCount * FERRY_BASE_ECON * mult * Math.max(1, adults)`.
Note the component's `infants` state is not read. -/
def ferryTotal (s : AppState) : ℚ :=
  (ferryLegCount s : ℚ) * FERRY_BASE_ECON * ((FERRY_CLASS_MULT s.ferryClass).getD 1) *
    ((max 1 s.adults : Int) : ℚ)

/-- `safeNum(activities.find(a => a.id === id)?.price)`: the price looked up
for one occurrence of a selected activity id (0 for unknown ids or missing
prices). -/
def activityPrice (acts : List Activity) (id : String) : ℚ :=
  match acts.find? (fun a => a.id == id) with
  | some a => a.price.getD 0
  | none => 0

/-- `addonsTotal`: `addonIds.reduce((acc, id) => acc + safeNum(activities.find(a => a.id === id)?.price), 0)`. -/
def addonsTotal (s : AppState) : ℚ :=
  s.addonIds.foldl (fun acc id => acc + activityPrice s.activities id) 0

/-! ## Mood inference (`inferMoods` of the unnamed source part) -/

/-- `moods.add(m)` on a JavaScript `Set` kept in insertion order. -/
def addMood (moods : List String) (m : String) : List String :=
  if moods.contains m then moods else moods ++ [m]

/-- One conditional `if (cond) moods.add(m)` step. -/
def moodStep (cond : Prop) [Decidable cond] (m : String) (moods : List String) : List String :=
  if cond then addMood moods m else moods

def adventureWords : List String := ["snorkel", "scuba", "dive", "trek", "kayak", "surf", "jet", "parasail"]

def sceneryWords : List String := ["beach", "sunset", "view", "cove", "lagoon", "mangrove"]

def cultureWords : List String := ["museum", "culture", "heritage", "jail", "cellular", "memorial"]

def natureWords : List String := ["wildlife", "reef", "coral", "mangrove", "bird", "nature", "peak"]

def offbeatWords : List String := ["lighthouse", "mangrove", "cave", "long island", "mud volcano", "baratang", "ross", "smith", "saddle peak"]

/-- A regex alternation of plain literal words matches iff one of the words
is a substring. -/
def matchesAny (s : String) (words : List String) : Bool :=
  words.any (fun w => strContains s w)

/-- The mood-inference heuristic: duration rules, keyword rules on the
lowercased `interest` field, offbeat-name rule on the lowercased `name`,
and the "Balanced" fallback when no rule fired.  A pure function of the
record. -/
def inferMoods (loc : Location) : List String :=
  let interest := strToLower loc.interest
  let nm := strToLower loc.name
  let dur := loc.durationHrs.getD 2
  let moods :=
    moodStep (matchesAny nm offbeatWords = true) "Offbeat"
      (moodStep (matchesAny interest natureWords = true) "Photography"
        (moodStep (matchesAny interest cultureWords = true) "Family"
          (moodStep (matchesAny interest sceneryWords = true) "Relaxed"
            (moodStep (matchesAny interest adventureWords = true) "Adventure"
              (moodStep (dur ≥ 4) "Active"
                (moodStep (dur ≥ 3) "Balanced"
                  (moodStep (dur ≤ 2) "Relaxed" [])))))))
  if moods.isEmpty then ["Balanced"] else moods

/-! ## Spec-side auxiliary definitions -/

/-- Number of location stops of a day. -/
def dayStops (d : Day) : Nat :=
  (d.items.filter (fun i => i.type == "location")).length

/-- Duration contributed by one item (location visits only). -/
def itemDuration : Item → ℚ
  | .location _ _ dur _ => dur
  | _ => 0

/-- Sum of the location-stop durations of a day. -/
def dayLocDuration (d : Day) : ℚ :=
  (d.items.map itemDuration).sum

/-- Sum of the effective durations of a bucket. -/
def bucketSum (bucket : List Location) : ℚ :=
  (bucket.map durOf).sum

/-- Direct recursive count of ferry-type items in an item list. -/
def countFerryItems : List Item → Nat
  | [] => 0
  | i :: t => (if i.type == "ferry" then 1 else 0) + countFerryItems t

/-- Direct recursive count of ferry-type items across an itinerary. -/
def itineraryFerryCount : List Day → Nat
  | [] => 0
  | d :: t => countFerryItems d.items + itineraryFerryCount t

/-- Total number of items across an itinerary. -/
def totalItems (days : List Day) : Nat :=
  (days.map (fun d => d.items.length)).sum

/-! ## Helper lemmas -/

theorem foldl_add_eq_sum (f : String → ℚ) (l : List String) (acc : ℚ) :
    l.foldl (fun a id => a + f id) acc = acc + (l.map f).sum := by
  induction l generalizing acc with
  | nil => simp
  | cons x t ih => simp [List.foldl_cons, ih, add_assoc]

theorem foldl_ferry_eq_count (days : List Day) (acc : Nat) :
    days.foldl (fun acc d => acc + (d.items.filter (fun i => i.type == "ferry")).length) acc =
      acc + itineraryFerryCount days := by
  induction days generalizing acc with
  | nil => simp [itineraryFerryCount]
  | cons d t ih =>
    have hitems : ∀ l : List Item,
        (l.filter (fun i => i.type == "ferry")).length = countFerryItems l := by
      intro l
      induction l with
      | nil => simp [countFerryItems]
      | cons i t ih2 =>
        by_cases h : (i.type == "ferry") = true <;>
          simp [countFerryItems, List.filter_cons, h, ih2] <;> omega
    rw [List.foldl_cons, ih]
    simp only [hitems, itineraryFerryCount]
    omega

/-! ## Claim C2 -/

/-- C2 counterexample: on the empty selection `generateItineraryDays`
returns a single day (the Arrival day), not the claimed two days
(Arrival followed by Departure). -/
theorem generateItineraryDays_empty_one_day :
    generateItineraryDays [] true = [arrivalDay] ∧
    (generateItineraryDays [] true).length ≠ 2 := by
  refine ⟨rfl, ?_⟩
  decide

/-- C2 (amended): for either value of the start-at-hub flag, the empty
selection yields exactly one Day — the Arrival Day at Port Blair — with no
intermediate content and no Departure Day.  The embedding is a total
function into plain lists, matching the source's no-throw behaviour on
array inputs. -/
theorem generateItineraryDays_empty (b : Bool) :
    generateItineraryDays [] b = [arrivalDay] := by
  simp [generateItineraryDays, generateItineraryDaysFlagged]

/-! ## Claim C7 -/

/-- C7: the inter-island transit subtotal is the total count of ferry-type
items across the itinerary times the base per-leg per-adult rate (1500)
times the class multiplier (Economy 1, Deluxe 1.4 = 7/5, Luxury 1.9 =
19/10) times `max 1 adults`; the `infants` component state has no effect
on it. -/
theorem ferryTotal_formula (s : AppState) (n : Int) :
    ferryTotal s =
      (itineraryFerryCount s.days : ℚ) * 1500 *
        ((FERRY_CLASS_MULT s.ferryClass).getD 1) * ((max 1 s.adults : Int) : ℚ) ∧
    (FERRY_CLASS_MULT "Economy").getD 1 = 1 ∧
    (FERRY_CLASS_MULT "Deluxe").getD 1 = 7 / 5 ∧
    (FERRY_CLASS_MULT "Luxury").getD 1 = 19 / 10 ∧
    ferryTotal { s with infants := n } = ferryTotal s := by
  have hcount : ferryLegCount s = itineraryFerryCount s.days := by
    simpa using foldl_ferry_eq_count s.days 0
  refine ⟨?_, by simp [FERRY_CLASS_MULT], by simp [FERRY_CLASS_MULT],
    by simp [FERRY_CLASS_MULT], rfl⟩
  simp [ferryTotal, hcount, FERRY_BASE_ECON]

/-! ## Claim C8 -/

/-- C8 counterexample: with a single catalog activity of price 100 and the
selection list `["a", "a"]`, the subtotal is 200, while the sum over the
distinct selected ids is 100 — a duplicated id does contribute its price
twice, contradicting the claim. -/
theorem addonsTotal_duplicate_counterexample :
    addonsTotal ⟨[], 2, 0, "Deluxe", ["a", "a"], [⟨"a", "Kayak", some 100⟩]⟩ = 200 ∧
    ((["a", "a"].dedup).map (activityPrice [⟨"a", "Kayak", some 100⟩])).sum = 100 ∧
    (200 : ℚ) ≠ 100 := by
  refine ⟨?_, ?_, by norm_num⟩
  · norm_num [addonsTotal, activityPrice, List.find?]
  · norm_num [List.dedup, activityPrice, List.find?]

/-- C8 (amended): the Activities subtotal equals the sum, over each
occurrence of an id in the selection list, of that id's looked-up price
(0 for unknown ids); ids occurring more than once therefore contribute once
per occurrence, and the claimed distinct-sum reading holds only for
duplicate-free selection lists (which is what the UI toggle maintains). -/
theorem addonsTotal_per_occurrence (s : AppState) :
    addonsTotal s = (s.addonIds.map (activityPrice s.activities)).sum := by
  simpa using foldl_add_eq_sum (activityPrice s.activities) s.addonIds 0

/-! ## Claim C4 -/

/-- C4 counterexample: on the itinerary generated from the empty selection,
deleting day 0 (the Arrival Day) removes it, and setting the transport of
day 0 changes it — neither is the claimed silent no-op, and `deleteDay`
happily drops the itinerary below 2 days (here from 1 day to none). -/
theorem deleteDay_arrival_counterexample :
    deleteDay (generateItineraryDays [] true) 0 ≠ generateItineraryDays [] true ∧
    setTransportForDay (generateItineraryDays [] true) 0 "Scooter" ≠
      generateItineraryDays [] true := by
  constructor
  · decide
  · decide

/-- C4 (amended): `deleteDay` removes the Day at any in-range index
unconditionally — including the Arrival (first) and last Day — shrinking
the itinerary by one; `setTransportForDay` overwrites the transport of the
Day at any in-range index unconditionally and leaves every other Day
unchanged.  The functions contain no lock check and no minimum-length
check (the UI separately disables the delete button only when at most one
day remains). -/
theorem deleteDay_setTransport_unguarded (days : List Day) (i : Nat) (m : String)
    (h : i < days.length) :
    (deleteDay days i).length + 1 = days.length ∧
    deleteDay days i ≠ days ∧
    (setTransportForDay days i m).get? i = some { days.get ⟨i, h⟩ with transport := m } ∧
    ∀ j : Nat, j ≠ i → (setTransportForDay days i m).get? j = days.get? j := by
  have hlen : (deleteDay days i).length = days.length - 1 :=
    List.length_eraseIdx_of_lt h
  have hpos : 0 < days.length := Nat.lt_of_le_of_lt (Nat.zero_le i) h
  refine ⟨by omega, ?_, ?_, ?_⟩
  · intro heq
    have := congrArg List.length heq
    rw [hlen] at this
    omega
  · unfold setTransportForDay
    rw [List.get?_eq_get h]
    exact List.get?_set_eq_of_lt _ h
  · intro j hj
    unfold setTransportForDay
    rw [List.get?_eq_get h]
    exact List.get?_set_ne _ _ (fun hij => hj hij.symm)

/-- Witness for the amended C4 theorem at a concrete input. -/
theorem deleteDay_setTransport_unguarded_witness :
    deleteDay (generateItineraryDays [] true) 0 ≠ generateItineraryDays [] true ∧
    (deleteDay (generateItineraryDays [] true) 0).length + 1 =
      (generateItineraryDays [] true).length :=
  ⟨(deleteDay_setTransport_unguarded (generateItineraryDays [] true) 0 "Scooter"
      (by decide)).2.1,
   (deleteDay_setTransport_unguarded (generateItineraryDays [] true) 0 "Scooter"
      (by decide)).1⟩

/-! ## Claim C9 -/

theorem mem_addMood_self (moods : List String) (m : String) : m ∈ addMood moods m := by
  unfold addMood
  split
  · next h => exact List.elem_iff.mp h
  · exact List.mem_append_right _ (List.mem_singleton.mpr rfl)

theorem mem_addMood_of_mem {moods : List String} {s : String} (m : String)
    (h : s ∈ moods) : s ∈ addMood moods m := by
  unfold addMood
  split
  · exact h
  · exact List.mem_append_left _ h

theorem mem_moodStep_self (c : Prop) [Decidable c] (m : String) (moods : List String)
    (h : c) : m ∈ moodStep c m moods := by
  unfold moodStep
  rw [if_pos h]
  exact mem_addMood_self moods m

theorem mem_moodStep_of_mem (c : Prop) [Decidable c] (m : String) {moods : List String}
    {s : String} (h : s ∈ moods) : s ∈ moodStep c m moods := by
  unfold moodStep
  split
  · exact mem_addMood_of_mem m h
  · exact h

theorem moodStep_neg (c : Prop) [Decidable c] (m : String) (moods : List String)
    (h : ¬c) : moodStep c m moods = moods := if_neg h

/-- C9: `inferMoods` always returns a non-empty tag list; the tag list
contains "Relaxed" when the (defaulted) duration is at most 2 hours,
"Balanced" when it is at least 3 hours, and "Active" when it is at least 4
hours; it is exactly `["Balanced"]` when no rule fires (duration strictly
between 2 and 3 hours and none of the keyword rules matches); and the
function is deterministic — equal inputs give equal outputs (it is a pure
function of the record). -/
theorem inferMoods_spec (loc : Location) :
    inferMoods loc ≠ [] ∧
    (loc.durationHrs.getD 2 ≤ 2 → "Relaxed" ∈ inferMoods loc) ∧
    (3 ≤ loc.durationHrs.getD 2 → "Balanced" ∈ inferMoods loc) ∧
    (4 ≤ loc.durationHrs.getD 2 → "Active" ∈ inferMoods loc) ∧
    ((2 : ℚ) < loc.durationHrs.getD 2 → loc.durationHrs.getD 2 < 3 →
      matchesAny (strToLower loc.interest) adventureWords = false →
      matchesAny (strToLower loc.interest) sceneryWords = false →
      matchesAny (strToLower loc.interest) cultureWords = false →
      matchesAny (strToLower loc.interest) natureWords = false →
      matchesAny (strToLower loc.name) offbeatWords = false →
      inferMoods loc = ["Balanced"]) ∧
    (∀ loc2 : Location, loc = loc2 → inferMoods loc = inferMoods loc2) := by
  have hfinal : ∀ (moods : List String) (s : String), s ∈ moods →
      s ∈ (if moods.isEmpty then ["Balanced"] else moods) := by
    intro moods s hs
    have : moods ≠ [] := by
      intro h0
      rw [h0] at hs
      exact List.not_mem_nil s hs
    rw [if_neg (by simpa [List.isEmpty_iff] using this)]
    exact hs
  refine ⟨?_, ?_, ?_, ?_, ?_, fun loc2 h => by rw [h]⟩
  · simp only [inferMoods]
    split
    · simp
    · next h => simpa [List.isEmpty_iff] using h
  · intro h
    simp only [inferMoods]
    apply hfinal
    exact mem_moodStep_of_mem _ _ (mem_moodStep_of_mem _ _ (mem_moodStep_of_mem _ _
      (mem_moodStep_of_mem _ _ (mem_moodStep_of_mem _ _ (mem_moodStep_of_mem _ _
        (mem_moodStep_of_mem _ _ (mem_moodStep_self _ _ _ h)))))))
  · intro h
    simp only [inferMoods]
    apply hfinal
    exact mem_moodStep_of_mem _ _ (mem_moodStep_of_mem _ _ (mem_moodStep_of_mem _ _
      (mem_moodStep_of_mem _ _ (mem_moodStep_of_mem _ _ (mem_moodStep_of_mem _ _
        (mem_moodStep_self _ _ _ h))))))
  · intro h
    simp only [inferMoods]
    apply hfinal
    exact mem_moodStep_of_mem _ _ (mem_moodStep_of_mem _ _ (mem_moodStep_of_mem _ _
      (mem_moodStep_of_mem _ _ (mem_moodStep_of_mem _ _
        (mem_moodStep_self _ _ _ h)))))
  · intro h2 h3 ha hs hc hn ho
    simp only [inferMoods]
    rw [moodStep_neg _ _ _ (by simp [ho]), moodStep_neg _ _ _ (by simp [hn]),
      moodStep_neg _ _ _ (by simp [hc]), moodStep_neg _ _ _ (by simp [hs]),
      moodStep_neg _ _ _ (by simp [ha]), moodStep_neg _ _ _ (by linarith),
      moodStep_neg _ _ _ (by linarith), moodStep_neg _ _ _ (by linarith)]
    rfl

/-- Witness for `inferMoods_spec`, exercising each hypothesised branch at a
concrete record. -/
theorem inferMoods_spec_witness :
    "Relaxed" ∈ inferMoods ⟨"a", "Neil", "Plain Spot", some 2, [], ""⟩ ∧
    "Balanced" ∈ inferMoods ⟨"b", "Neil", "Plain Spot", some 3, [], ""⟩ ∧
    "Active" ∈ inferMoods ⟨"c", "Neil", "Plain Spot", some 4, [], ""⟩ ∧
    inferMoods ⟨"d", "Neil", "Plain Spot", some (5 / 2), [], ""⟩ = ["Balanced"] :=
  ⟨(inferMoods_spec _).2.1 (by norm_num),
   (inferMoods_spec _).2.2.1 (by norm_num),
   (inferMoods_spec _).2.2.2.1 (by norm_num),
   (inferMoods_spec _).2.2.2.2.1 (by norm_num) (by norm_num)
     (by decide) (by decide) (by decide) (by decide) (by decide)⟩

/-! ## Claim C6 -/

theorem flushDay_snd_length_ge (island : String) (bucket locs : List Location) :
    locs.length ≤ (flushDay island bucket locs).2.length + 1 := by
  unfold flushDay
  rcases bucket with _ | ⟨b0, _ | ⟨b1, bs⟩⟩ <;> rcases locs with _ | ⟨y, t⟩ <;> simp

/-- C6: the single-stop lookahead of `flushDay`.  When the bucket is being
closed with exactly one stop and the island's queue is non-empty, exactly
the head of the queue is pulled into the bucket before the day is closed
(first conjunct); the pull never happens for an empty or multi-stop bucket
(second and third conjuncts); and at most one location is consumed per
close — the remaining queue never shrinks by more than one (last
conjunct), so the lookahead cannot recurse. -/
theorem flushDay_lookahead (island : String) (b0 b1 b2 y : Location)
    (t bs bucket locs : List Location) :
    flushDay island [b0] (y :: t) = (some (mkContentDay island [b0, y], true), t) ∧
    flushDay island [] locs = (none, locs) ∧
    flushDay island (b1 :: b2 :: bs) locs =
      (some (mkContentDay island (b1 :: b2 :: bs), false), locs) ∧
    locs.length ≤ (flushDay island bucket locs).2.length + 1 ∧
    (flushDay island bucket locs).2.length ≤ locs.length :=
  ⟨rfl, rfl, rfl, flushDay_snd_length_ge island bucket locs,
    flushDay_snd_length_le island bucket locs⟩

/-! ## Claim C1 -/

theorem flushDay_items_location (island : String) (bucket locs : List Location)
    (fd : Day × Bool) (h : (flushDay island bucket locs).1 = some fd) :
    ∀ it ∈ fd.1.items, it.type = "location" := by
  have hmk : ∀ (b : List Location), ∀ it ∈ (mkContentDay island b).items, it.type = "location" := by
    intro b it hit
    obtain ⟨x, -, hx⟩ := List.mem_map.mp hit
    rw [← hx]
    rfl
  unfold flushDay at h
  rcases bucket with _ | ⟨b0, _ | ⟨b1, bs⟩⟩ <;> rcases locs with _ | ⟨y, t⟩ <;>
    simp_all <;> (rw [← h]; exact hmk _)

theorem bucketLoop_items_location (island : String) (bucket : List Location)
    (timeUsed : ℚ) (locs : List Location) :
    ∀ fd ∈ bucketLoop island bucket timeUsed locs, ∀ it ∈ fd.1.items, it.type = "location" := by
  have key : ∀ (n : Nat) (locs bucket : List Location) (timeUsed : ℚ), locs.length ≤ n →
      ∀ fd ∈ bucketLoop island bucket timeUsed locs, ∀ it ∈ fd.1.items, it.type = "location" := by
    intro n
    induction n with
    | zero =>
      intro locs bucket timeUsed hlen fd hfd
      have hnil : locs = [] := List.eq_nil_of_length_eq_zero (Nat.le_zero.mp hlen)
      subst hnil
      rw [bucketLoop.eq_1] at hfd
      rcases hflush : (flushDay island bucket []).1 with - | fd'
      · rw [hflush] at hfd; simp at hfd
      · rw [hflush] at hfd
        simp at hfd
        rw [hfd]
        exact flushDay_items_location island bucket [] fd' hflush
    | succ n ih =>
      intro locs bucket timeUsed hlen fd hfd
      rcases locs with - | ⟨x, rest⟩
      · rw [bucketLoop.eq_1] at hfd
        rcases hflush : (flushDay island bucket []).1 with - | fd'
        · rw [hflush] at hfd; simp at hfd
        · rw [hflush] at hfd
          simp at hfd
          rw [hfd]
          exact flushDay_items_location island bucket [] fd' hflush
      · rw [bucketLoop_flush_step] at hfd
        by_cases hg : bucket.length ≥ 4 ∨ timeUsed + durOf x > 7
        · rw [if_pos hg] at hfd
          rcases List.mem_append.mp hfd with hfd | hfd
          · rcases hflush : (flushDay island bucket rest).1 with - | fd'
            · rw [hflush] at hfd; simp at hfd
            · rw [hflush] at hfd
              simp at hfd
              rw [hfd]
              exact flushDay_items_location island bucket rest fd' hflush
          · refine ih (flushDay island bucket rest).2 [x] (durOf x) ?_ fd hfd
            have h1 := flushDay_snd_length_le island bucket rest
            simp only [List.length_cons] at hlen
            omega
        · rw [if_neg hg] at hfd
          refine ih rest (bucket ++ [x]) (timeUsed + durOf x) ?_ fd hfd
          simp only [List.length_cons] at hlen
          omega
  exact key locs.length locs bucket timeUsed (le_refl _)

theorem islandsLoop_no_departure (sel : List Location) (order : List String) :
    ∀ fd ∈ islandsLoop sel order, ∀ it ∈ fd.1.items, it.type ≠ "departure" := by
  induction order with
  | nil =>
    intro fd hfd
    simp [islandsLoop] at hfd
  | cons island rest ih =>
    intro fd hfd it hit
    simp only [islandsLoop] at hfd
    rcases List.mem_append.mp hfd with hfd | hfd
    · rcases List.mem_append.mp hfd with hfd | hfd
      · have := bucketLoop_items_location island [] 0 _ fd hfd it hit
        rw [this]
        decide
      · rcases rest with - | ⟨next, rest'⟩
        · simp at hfd
        · simp at hfd
          rw [hfd] at hit
          simp [ferryDayOf] at hit
          rw [hit]
          simp [Item.type]
    · exact ih fd hfd it hit

/-- C1 counterexample: on the empty selection the itinerary is the single
Arrival Day; its last Day is the Arrival Day, which contains no
Departure-type item, so the itinerary does not end with a (locked)
Departure Day at the hub — and indeed Day records of this revision carry
no locked flag at all. -/
theorem generateItineraryDays_no_departure_counterexample :
    (generateItineraryDays [] true).getLast? = some arrivalDay ∧
    arrivalDay.items.all (fun it => it.type != "departure") = true ∧
    (generateItineraryDays [] true).length = 1 := by
  refine ⟨rfl, by decide, by decide⟩

/-- C1 (amended): for every selection and flag value, the first Day of the
generated itinerary is the (unlocked — no locked flag exists) Arrival Day
at the hub island Port Blair; the scheduler never emits any Departure-type
item, so no Departure Day concludes the itinerary and no return-to-the-hub
ferry is appended after the last visited island. -/
theorem generateItineraryDays_arrival_anchor (sel : List Location) (b : Bool) :
    (generateItineraryDays sel b).head? = some arrivalDay ∧
    ∀ d ∈ generateItineraryDays sel b, ∀ it ∈ d.items, it.type ≠ "departure" := by
  constructor
  · rfl
  · intro d hd it hit
    unfold generateItineraryDays generateItineraryDaysFlagged at hd
    rcases List.mem_map.mp hd with ⟨fd, hfd, hfst⟩
    rcases List.mem_cons.mp hfd with hfd | hfd
    · rw [hfd] at hfst
      rw [← hfst] at hit
      simp only [arrivalDay, List.mem_cons, List.mem_singleton, List.not_mem_nil, or_false]
        at hit
      rcases hit with hit | hit
      · rw [hit]; decide
      · rw [hit]; decide
    · rcases hsel : sel.isEmpty with - | -
      · rw [hsel] at hfd
        simp at hfd
        have := islandsLoop_no_departure sel (islandOrder sel b) fd hfd
        rw [← hfst] at hit
        exact this it hit
      · rw [hsel] at hfd
        simp at hfd

/-! ## Claim C3 -/

theorem dayStops_mkContentDay (island : String) (bucket : List Location) :
    dayStops (mkContentDay island bucket) = bucket.length := by
  unfold dayStops mkContentDay
  induction bucket with
  | nil => rfl
  | cons x t ih =>
    simp only [List.map_cons, List.filter_cons]
    have : ((locItem x).type == "location") = true := by
      simp [locItem, Item.type]
    rw [this]
    simp only [List.length_cons]
    rw [← ih]
    simp

theorem dayLocDuration_mkContentDay (island : String) (bucket : List Location) :
    dayLocDuration (mkContentDay island bucket) = bucketSum bucket := by
  unfold dayLocDuration mkContentDay bucketSum
  induction bucket with
  | nil => rfl
  | cons x t ih =>
    simp only [List.map_cons, List.sum_cons]
    rw [ih]
    congr 1

theorem dayStops_ferryDayOf (island next : String) : dayStops (ferryDayOf island next) = 0 := by
  simp [dayStops, ferryDayOf, Item.type]

theorem dayLocDuration_ferryDayOf (island next : String) :
    dayLocDuration (ferryDayOf island next) = 0 := by
  simp [dayLocDuration, ferryDayOf, itemDuration]

theorem flushDay_stops (island : String) (bucket locs : List Location) (fd : Day × Bool)
    (h : (flushDay island bucket locs).1 = some fd) (hb : bucket.length ≤ 4) :
    dayStops fd.1 ≤ 4 := by
  unfold flushDay at h
  rcases bucket with _ | ⟨b0, _ | ⟨b1, bs⟩⟩ <;> rcases locs with _ | ⟨y, t⟩ <;>
    simp_all <;> rw [← h] <;> simp [dayStops_mkContentDay] <;> simp_all

theorem flushDay_false_duration (island : String) (bucket locs : List Location)
    (fd : Day × Bool) (h : (flushDay island bucket locs).1 = some fd)
    (hfalse : fd.2 = false) (hsum : bucketSum bucket ≤ 7) :
    dayLocDuration fd.1 ≤ 7 := by
  unfold flushDay at h
  rcases bucket with _ | ⟨b0, _ | ⟨b1, bs⟩⟩ <;> rcases locs with _ | ⟨y, t⟩ <;> simp_all <;>
    first
      | (rw [← h]; simpa [dayLocDuration_mkContentDay] using hsum)
      | (rw [← h] at hfalse; simp at hfalse)

theorem flushDay_snd_subset (island : String) (bucket locs : List Location) :
    ∀ z ∈ (flushDay island bucket locs).2, z ∈ locs := by
  unfold flushDay
  rcases bucket with _ | ⟨b0, _ | ⟨b1, bs⟩⟩ <;> rcases locs with _ | ⟨y, t⟩ <;> simp_all

theorem bucketSum_append_single (bucket : List Location) (x : Location) :
    bucketSum (bucket ++ [x]) = bucketSum bucket + durOf x := by
  simp [bucketSum]

theorem bucketLoop_stops (island : String) (bucket : List Location) (timeUsed : ℚ)
    (locs : List Location) :
    bucket.length ≤ 4 → ∀ fd ∈ bucketLoop island bucket timeUsed locs, dayStops fd.1 ≤ 4 := by
  have key : ∀ (n : Nat) (locs bucket : List Location) (timeUsed : ℚ), locs.length ≤ n →
      bucket.length ≤ 4 → ∀ fd ∈ bucketLoop island bucket timeUsed locs, dayStops fd.1 ≤ 4 := by
    intro n
    induction n with
    | zero =>
      intro locs bucket timeUsed hlen hb fd hfd
      have hnil : locs = [] := List.eq_nil_of_length_eq_zero (Nat.le_zero.mp hlen)
      subst hnil
      rw [bucketLoop.eq_1] at hfd
      rcases hflush : (flushDay island bucket []).1 with - | fd'
      · rw [hflush] at hfd; simp at hfd
      · rw [hflush] at hfd
        simp at hfd
        rw [hfd]
        exact flushDay_stops island bucket [] fd' hflush hb
    | succ n ih =>
      intro locs bucket timeUsed hlen hb fd hfd
      rcases locs with - | ⟨x, rest⟩
      · rw [bucketLoop.eq_1] at hfd
        rcases hflush : (flushDay island bucket []).1 with - | fd'
        · rw [hflush] at hfd; simp at hfd
        · rw [hflush] at hfd
          simp at hfd
          rw [hfd]
          exact flushDay_stops island bucket [] fd' hflush hb
      · rw [bucketLoop_flush_step] at hfd
        by_cases hg : bucket.length ≥ 4 ∨ timeUsed + durOf x > 7
        · rw [if_pos hg] at hfd
          rcases List.mem_append.mp hfd with hfd | hfd
          · rcases hflush : (flushDay island bucket rest).1 with - | fd'
            · rw [hflush] at hfd; simp at hfd
            · rw [hflush] at hfd
              simp at hfd
              rw [hfd]
              exact flushDay_stops island bucket rest fd' hflush hb
          · refine ih (flushDay island bucket rest).2 [x] (durOf x) ?_ (by simp) fd hfd
            have h1 := flushDay_snd_length_le island bucket rest
            simp only [List.length_cons] at hlen
            omega
        · rw [if_neg hg] at hfd
          have hlen3 : bucket.length ≤ 3 := by
            rcases Nat.lt_or_ge bucket.length 4 with h | h
            · omega
            · exact absurd (Or.inl h) hg
          refine ih rest (bucket ++ [x]) (timeUsed + durOf x) ?_ (by simp; omega) fd hfd
          simp only [List.length_cons] at hlen
          omega
  exact key locs.length locs bucket timeUsed (le_refl _)

theorem bucketLoop_duration (island : String) (bucket : List Location) (timeUsed : ℚ)
    (locs : List Location) :
    (∀ l ∈ locs, durOf l ≤ 7) → timeUsed = bucketSum bucket → bucketSum bucket ≤ 7 →
    ∀ fd ∈ bucketLoop island bucket timeUsed locs, fd.2 = false → dayLocDuration fd.1 ≤ 7 := by
  have key : ∀ (n : Nat) (locs bucket : List Location) (timeUsed : ℚ), locs.length ≤ n →
      (∀ l ∈ locs, durOf l ≤ 7) → timeUsed = bucketSum bucket → bucketSum bucket ≤ 7 →
      ∀ fd ∈ bucketLoop island bucket timeUsed locs, fd.2 = false →
        dayLocDuration fd.1 ≤ 7 := by
    intro n
    induction n with
    | zero =>
      intro locs bucket timeUsed hlen hall htime hsum fd hfd hfalse
      have hnil : locs = [] := List.eq_nil_of_length_eq_zero (Nat.le_zero.mp hlen)
      subst hnil
      rw [bucketLoop.eq_1] at hfd
      rcases hflush : (flushDay island bucket []).1 with - | fd'
      · rw [hflush] at hfd; simp at hfd
      · rw [hflush] at hfd
        simp at hfd
        rw [hfd]
        rw [hfd] at hfalse
        exact flushDay_false_duration island bucket [] fd' hflush hfalse hsum
    | succ n ih =>
      intro locs bucket timeUsed hlen hall htime hsum fd hfd hfalse
      rcases locs with - | ⟨x, rest⟩
      · rw [bucketLoop.eq_1] at hfd
        rcases hflush : (flushDay island bucket []).1 with - | fd'
        · rw [hflush] at hfd; simp at hfd
        · rw [hflush] at hfd
          simp at hfd
          rw [hfd]
          rw [hfd] at hfalse
          exact flushDay_false_duration island bucket [] fd' hflush hfalse hsum
      · rw [bucketLoop_flush_step] at hfd
        by_cases hg : bucket.length ≥ 4 ∨ timeUsed + durOf x > 7
        · rw [if_pos hg] at hfd
          rcases List.mem_append.mp hfd with hfd | hfd
          · rcases hflush : (flushDay island bucket rest).1 with - | fd'
            · rw [hflush] at hfd; simp at hfd
            · rw [hflush] at hfd
              simp at hfd
              rw [hfd]
              rw [hfd] at hfalse
              exact flushDay_false_duration island bucket rest fd' hflush hfalse hsum
          · refine ih (flushDay island bucket rest).2 [x] (durOf x) ?_ ?_ ?_ ?_ fd hfd hfalse
            · have h1 := flushDay_snd_length_le island bucket rest
              simp only [List.length_cons] at hlen
              omega
            · intro l hl
              exact hall l (List.mem_cons_of_mem x (flushDay_snd_subset island bucket rest l hl))
            · simp [bucketSum]
            · have : durOf x ≤ 7 := hall x (List.mem_cons_self x rest)
              simpa [bucketSum] using this
        · rw [if_neg hg] at hfd
          have hle : timeUsed + durOf x ≤ 7 := by
            rcases le_or_lt (timeUsed + durOf x) 7 with h | h
            · exact h
            · exact absurd (Or.inr h) hg
          refine ih rest (bucket ++ [x]) (timeUsed + durOf x) ?_ ?_ ?_ ?_ fd hfd hfalse
          · simp only [List.length_cons] at hlen
            omega
          · intro l hl
            exact hall l (List.mem_cons_of_mem x hl)
          · rw [bucketSum_append_single, htime]
          · rw [bucketSum_append_single, ← htime]
            exact hle
  exact key locs.length locs bucket timeUsed (le_refl _)

theorem mem_of_mem_orderByBestTime {l : Location} {items : List Location}
    (h : l ∈ orderByBestTime items) : l ∈ items := by
  unfold orderByBestTime at h
  obtain ⟨k, -, hk⟩ := List.mem_flatMap.mp h
  exact (List.mem_filter.mp hk).1

theorem islandsLoop_stops (sel : List Location) (order : List String) :
    ∀ fd ∈ islandsLoop sel order, dayStops fd.1 ≤ 4 := by
  induction order with
  | nil => intro fd hfd; simp [islandsLoop] at hfd
  | cons island rest ih =>
    intro fd hfd
    simp only [islandsLoop] at hfd
    rcases List.mem_append.mp hfd with hfd | hfd
    · rcases List.mem_append.mp hfd with hfd | hfd
      · exact bucketLoop_stops island [] 0 _ (by simp) fd hfd
      · rcases rest with - | ⟨next, rest'⟩
        · simp at hfd
        · simp at hfd
          rw [hfd]
          simp [dayStops_ferryDayOf]
    · exact ih fd hfd

theorem islandsLoop_duration (sel : List Location) (order : List String)
    (hall : ∀ l ∈ sel, durOf l ≤ 7) :
    ∀ fd ∈ islandsLoop sel order, fd.2 = false → dayLocDuration fd.1 ≤ 7 := by
  induction order with
  | nil => intro fd hfd; simp [islandsLoop] at hfd
  | cons island rest ih =>
    intro fd hfd hfalse
    simp only [islandsLoop] at hfd
    rcases List.mem_append.mp hfd with hfd | hfd
    · rcases List.mem_append.mp hfd with hfd | hfd
      · refine bucketLoop_duration island [] 0 _ ?_ (by simp [bucketSum]) (by simp [bucketSum])
          fd hfd hfalse
        intro l hl
        exact hall l (List.mem_filter.mp (mem_of_mem_orderByBestTime hl)).1
      · rcases rest with - | ⟨next, rest'⟩
        · simp at hfd
        · simp at hfd
          rw [hfd]
          simp [dayLocDuration_ferryDayOf]
    · exact ih fd hfd hfalse

/-- The concrete location and day of the C3 counterexample. -/
def cexLoc8 : Location := ⟨"x", "Port Blair", "X", some 8, [], ""⟩

def cexDay8 : Day := ⟨"Port Blair", [Item.location "x" "X" 8 []], "Point-to-Point"⟩

/-- C3 counterexample: a single selected location of duration 8 hours is
scheduled on a Day that was *not* completed by the single-stop lookahead
(its ghost flag is `false`), yet its location-stop duration sum is 8 > 7
hours.  The 7-hour cap can be exceeded outside the lookahead edge case. -/
theorem capacity_counterexample :
    generateItineraryDaysFlagged [cexLoc8] true = [(arrivalDay, false), (cexDay8, false)] ∧
    dayLocDuration cexDay8 = 8 ∧ ¬ ((8 : ℚ) ≤ 7) := by
  refine ⟨?_, by norm_num [dayLocDuration, cexDay8, itemDuration], by norm_num⟩
  have hord : islandOrder [cexLoc8] true = ["Port Blair"] := by decide
  have hobt : orderByBestTime (List.filter (fun l => l.island == "Port Blair") [cexLoc8]) =
      [cexLoc8] := by decide
  have hguard : ([] : List Location).length ≥ 4 ∨ (0 : ℚ) + durOf cexLoc8 > 7 := by
    right
    norm_num [durOf, cexLoc8]
  have hloop : bucketLoop "Port Blair" [] 0 [cexLoc8] =
      [(mkContentDay "Port Blair" [cexLoc8], false)] := by
    rw [bucketLoop_flush_step, if_pos hguard]
    rfl
  have hmk : mkContentDay "Port Blair" [cexLoc8] = cexDay8 := by decide
  rw [generateItineraryDaysFlagged]
  rw [show ([cexLoc8].isEmpty) = false from rfl]
  simp only [Bool.false_eq_true, if_false]
  rw [hord, islandsLoop, hobt, hloop, hmk, islandsLoop]
  simp

/-- C3 (amended): every Day produced by the scheduler — lookahead-completed
or not — has at most 4 location stops; and provided every selected
location's effective duration is at most 7 hours, every Day not completed
by the single-stop lookahead of §4.3c has location-stop duration sum at
most 7 hours.  (A single location longer than 7 hours already violates the
unamended bound, as the counterexample shows.) -/
theorem generateItineraryDays_capacity (sel : List Location) (b : Bool) :
    (∀ fd ∈ generateItineraryDaysFlagged sel b, dayStops fd.1 ≤ 4) ∧
    ((∀ l ∈ sel, durOf l ≤ 7) →
      ∀ fd ∈ generateItineraryDaysFlagged sel b, fd.2 = false → dayLocDuration fd.1 ≤ 7) := by
  have harr_stops : dayStops arrivalDay = 0 := by decide
  have harr_dur : dayLocDuration arrivalDay = 0 := by
    simp [dayLocDuration, arrivalDay, itemDuration]
  constructor
  · intro fd hfd
    unfold generateItineraryDaysFlagged at hfd
    rcases List.mem_cons.mp hfd with hfd | hfd
    · rw [hfd]; simp [harr_stops]
    · rcases hsel : sel.isEmpty with - | -
      · rw [hsel] at hfd
        simp at hfd
        exact islandsLoop_stops sel (islandOrder sel b) fd hfd
      · rw [hsel] at hfd; simp at hfd
  · intro hall fd hfd hfalse
    unfold generateItineraryDaysFlagged at hfd
    rcases List.mem_cons.mp hfd with hfd | hfd
    · rw [hfd]; simp [harr_dur]
    · rcases hsel : sel.isEmpty with - | -
      · rw [hsel] at hfd
        simp at hfd
        exact islandsLoop_duration sel (islandOrder sel b) hall fd hfd hfalse
      · rw [hsel] at hfd; simp at hfd

/-- The concrete location of the C3 witness. -/
def witLoc2 : Location := ⟨"a", "Havelock", "A", some 2, [], ""⟩

/-- Witness for the amended C3 theorem at a concrete selection. -/
theorem generateItineraryDays_capacity_witness :
    dayStops (mkContentDay "Havelock" [witLoc2]) ≤ 4 ∧
    dayLocDuration (mkContentDay "Havelock" [witLoc2]) ≤ 7 := by
  have hflag : generateItineraryDaysFlagged [witLoc2] true =
      [(arrivalDay, false), (mkContentDay "Havelock" [witLoc2], false)] := by
    have hord : islandOrder [witLoc2] true = ["Havelock"] := by decide
    have hobt : orderByBestTime (List.filter (fun l => l.island == "Havelock") [witLoc2]) =
        [witLoc2] := by decide
    have hguard : ¬ (([] : List Location).length ≥ 4 ∨ (0 : ℚ) + durOf witLoc2 > 7) := by
      push_neg
      norm_num [durOf, witLoc2]
    have hloop : bucketLoop "Havelock" [] 0 [witLoc2] =
        [(mkContentDay "Havelock" [witLoc2], false)] := by
      rw [bucketLoop_flush_step, if_neg hguard]
      rfl
    rw [generateItineraryDaysFlagged]
    rw [show ([witLoc2].isEmpty) = false from rfl]
    simp only [Bool.false_eq_true, if_false]
    rw [hord, islandsLoop, hobt, hloop, islandsLoop]
    simp
  have hmem : ((mkContentDay "Havelock" [witLoc2], false) : Day × Bool) ∈
      generateItineraryDaysFlagged [witLoc2] true := by
    rw [hflag]
    simp
  exact ⟨(generateItineraryDays_capacity [witLoc2] true).1 _ hmem,
    (generateItineraryDays_capacity [witLoc2] true).2
      (by intro l hl; simp at hl; rw [hl]; norm_num [durOf, witLoc2]) _ hmem rfl⟩

/-! ## Claim C5 -/

theorem indexOfAux_cases (l : List String) (s : String) :
    indexOfAux s l = -1 ∨ (0 ≤ indexOfAux s l ∧ indexOfAux s l < l.length) := by
  induction l with
  | nil => left; rfl
  | cons h t ih =>
    simp only [indexOfAux]
    by_cases hh : (h == s) = true
    · rw [if_pos hh]
      right
      simp
    · rw [if_neg hh]
      rcases ih with hr | ⟨hr0, hr1⟩
      · rw [hr]
        simp
      · have hne : ¬ ((indexOfAux s t == -1) = true) := by
          rw [beq_iff_eq]
          omega
        rw [if_neg hne]
        right
        constructor
        · omega
        · simp only [List.length_cons]
          push_cast
          omega

theorem islandIdx_mem_keyRange (s : String) : islandIdx s ∈ keyRange := by
  rcases indexOfAux_cases DEFAULT_ISLANDS s with h | ⟨h0, h1⟩
  · simp [keyRange, islandIdx, h]
  · have h5 : indexOfAux s DEFAULT_ISLANDS < 5 := by
      simpa [DEFAULT_ISLANDS] using h1
    simp only [keyRange, islandIdx, List.mem_cons, List.not_mem_nil, or_false]
    omega

theorem mem_firstOccur (l : List String) (y : String) : y ∈ firstOccur l ↔ y ∈ l := by
  induction l with
  | nil => simp [firstOccur]
  | cons x t ih =>
    simp only [firstOccur, List.mem_cons]
    constructor
    · rintro (h | h)
      · left; exact h
      · right; exact ih.mp (List.mem_filter.mp h).1
    · rintro (h | h)
      · left; exact h
      · by_cases hxy : y = x
        · left; exact hxy
        · right
          refine List.mem_filter.mpr ⟨ih.mpr h, ?_⟩
          simp [hxy]

theorem firstOccur_nodup (l : List String) : (firstOccur l).Nodup := by
  induction l with
  | nil => simp [firstOccur]
  | cons x t ih =>
    simp only [firstOccur]
    refine List.nodup_cons.mpr ⟨?_, ih.filter _⟩
    intro hmem
    have := (List.mem_filter.mp hmem).2
    simp at this

theorem flatMap_filter_pairwise (ks : List Int) (keys : List String)
    (hks : ks.Pairwise (· ≤ ·)) :
    (ks.flatMap (fun k => keys.filter (fun i => islandIdx i == k))).Pairwise
      (fun a b => islandIdx a ≤ islandIdx b) := by
  induction ks with
  | nil => simp
  | cons k ks ih =>
    rw [List.flatMap_cons, List.pairwise_append]
    refine ⟨?_, ih (List.pairwise_cons.mp hks).2, ?_⟩
    · apply List.pairwise_of_forall_mem_list
      intro a ha b hb
      rw [eq_of_beq (List.mem_filter.mp ha).2, eq_of_beq (List.mem_filter.mp hb).2]
    · intro a ha b hb
      obtain ⟨k2, hk2, hb2⟩ := List.mem_flatMap.mp hb
      rw [eq_of_beq (List.mem_filter.mp ha).2, eq_of_beq (List.mem_filter.mp hb2).2]
      exact (List.pairwise_cons.mp hks).1 k2 hk2

theorem flatMap_filter_nodup (ks : List Int) (keys : List String)
    (hks : ks.Pairwise (· < ·)) (hkeys : keys.Nodup) :
    (ks.flatMap (fun k => keys.filter (fun i => islandIdx i == k))).Nodup := by
  induction ks with
  | nil => simp
  | cons k ks ih =>
    rw [List.flatMap_cons, List.nodup_append]
    refine ⟨hkeys.filter _, ih (List.pairwise_cons.mp hks).2, ?_⟩
    intro a ha hb
    obtain ⟨k2, hk2, hb2⟩ := List.mem_flatMap.mp hb
    have h1 := eq_of_beq (List.mem_filter.mp ha).2
    have h2 := eq_of_beq (List.mem_filter.mp hb2).2
    have h3 : k < k2 := (List.pairwise_cons.mp hks).1 k2 hk2
    omega

theorem mem_sortIslands (keys : List String) (x : String) :
    x ∈ sortIslands keys ↔ x ∈ keys := by
  constructor
  · intro h
    obtain ⟨k, -, hk⟩ := List.mem_flatMap.mp h
    exact (List.mem_filter.mp hk).1
  · intro h
    exact List.mem_flatMap.mpr ⟨islandIdx x, islandIdx_mem_keyRange x,
      List.mem_filter.mpr ⟨h, by simp⟩⟩

/-- C5 counterexample: with a selection on the unknown island "Baratang"
and on "Havelock" and the flag set, the order is
`["Baratang", "Havelock"]`: the unknown island sorts *first* (its
`indexOf` is −1), not last, and the hub "Port Blair" is *not* injected and
hence not at position 0. -/
theorem islandOrder_counterexample :
    islandOrder [⟨"b1", "Baratang", "B", none, [], ""⟩, ⟨"h1", "Havelock", "H", none, [], ""⟩]
        true = ["Baratang", "Havelock"] ∧
    (islandOrder [⟨"b1", "Baratang", "B", none, [], ""⟩, ⟨"h1", "Havelock", "H", none, [], ""⟩]
        true).head? ≠ some "Port Blair" := by
  constructor
  · decide
  · decide

/-- C5 (amended): the island order consists exactly of the islands of the
selected locations (no hub injection when absent), each exactly once; when
the flag is true and the hub island is among them, it is moved to position
0; when the flag is false the order is the stable sort of the distinct
islands (in first-occurrence order) by their `DEFAULT_ISLANDS` index, with
islands not in the canonical list (index −1) placed first. -/
theorem islandOrder_spec (sel : List Location) (b : Bool) :
    (∀ x, x ∈ islandOrder sel b ↔ x ∈ sel.map (·.island)) ∧
    (islandOrder sel b).Nodup ∧
    (b = true → "Port Blair" ∈ sel.map (·.island) →
      (islandOrder sel b).head? = some "Port Blair") ∧
    (b = false → (islandOrder sel b).Pairwise (fun a c => islandIdx a ≤ islandIdx c)) := by
  have hbase_mem : ∀ x, x ∈ sortIslands (firstOccur (sel.map (·.island))) ↔
      x ∈ sel.map (·.island) := fun x =>
    (mem_sortIslands _ x).trans (mem_firstOccur _ x)
  have hbase_nodup : (sortIslands (firstOccur (sel.map (·.island)))).Nodup :=
    flatMap_filter_nodup keyRange _ (by decide) (firstOccur_nodup _)
  have hbase_pairwise : (sortIslands (firstOccur (sel.map (·.island)))).Pairwise
      (fun a c => islandIdx a ≤ islandIdx c) :=
    flatMap_filter_pairwise keyRange _ (by decide)
  simp only [islandOrder]
  by_cases hcond : b = true ∧
      ((sortIslands (firstOccur (sel.map (·.island)))).contains "Port Blair") = true
  · rw [if_pos hcond]
    have hpbmem : "Port Blair" ∈ sortIslands (firstOccur (sel.map (·.island))) :=
      List.elem_iff.mp hcond.2
    refine ⟨?_, ?_, fun _ _ => rfl, ?_⟩
    · intro x
      constructor
      · intro h
        rcases List.mem_cons.mp h with h | h
        · rw [h]
          exact (hbase_mem _).mp hpbmem
        · exact (hbase_mem x).mp (List.mem_filter.mp h).1
      · intro h
        by_cases hx : x = "Port Blair"
        · rw [hx]; exact List.mem_cons_self _ _
        · refine List.mem_cons_of_mem _ (List.mem_filter.mpr ⟨(hbase_mem x).mpr h, ?_⟩)
          simp [hx]
    · refine List.nodup_cons.mpr ⟨?_, hbase_nodup.filter _⟩
      intro hmem
      have := (List.mem_filter.mp hmem).2
      simp at this
    · intro hb
      rw [hcond.1] at hb
      exact absurd hb (by simp)
  · rw [if_neg hcond]
    refine ⟨hbase_mem, hbase_nodup, ?_, fun _ => hbase_pairwise⟩
    intro hb hpb
    exact absurd ⟨hb, List.elem_iff.mpr ((hbase_mem _).mpr hpb)⟩ hcond

/-- Witness for the amended C5 theorem at concrete selections. -/
theorem islandOrder_spec_witness :
    (islandOrder [⟨"p", "Port Blair", "P", none, [], ""⟩] true).head? = some "Port Blair" ∧
    (islandOrder [⟨"h", "Havelock", "H", none, [], ""⟩] false).Pairwise
      (fun a c => islandIdx a ≤ islandIdx c) :=
  ⟨(islandOrder_spec [⟨"p", "Port Blair", "P", none, [], ""⟩] true).2.2.1 rfl (by decide),
   (islandOrder_spec [⟨"h", "Havelock", "H", none, [], ""⟩] false).2.2.2 rfl⟩

/-! ## Claim C10 -/

theorem totalItems_set (days : List Day) (i : Nat) (d : Day) (h : i < days.length) :
    totalItems (days.set i d) + (days.get ⟨i, h⟩).items.length =
      totalItems days + d.items.length := by
  induction days generalizing i with
  | nil => simp at h
  | cons x t ih =>
    rcases i with - | i
    · simp only [List.set_cons_zero, totalItems, List.map_cons, List.sum_cons, List.get]
      omega
    · simp only [List.set_cons_succ, totalItems, List.map_cons, List.sum_cons, List.get]
      have := ih i (by simpa using Nat.lt_of_succ_lt_succ h)
      simp only [totalItems] at this
      omega

/-- C10: with `f` in range, `p` a valid item position of Day `f`, `d` a
direction (±1) and `f + d` in range, `moveItem` succeeds and returns an
itinerary of the same length in which Day `f` lost exactly the item at
position `p`, Day `f + d` gained exactly that item at the end of its item
list, both Days keep their island and transport fields, every other Day is
untouched, and the total number of items is preserved. -/
theorem moveItem_spec (days : List Day) (f p : Nat) (d : Int)
    (hf : f < days.length)
    (hp : p < (days.get ⟨f, hf⟩).items.length)
    (hd : d = 1 ∨ d = -1)
    (h0 : 0 ≤ (f : Int) + d)
    (ht : ((f : Int) + d).toNat < days.length) :
    ∃ res : List Day,
      moveItem days f p d = some res ∧
      res.length = days.length ∧
      res.get? f = some ⟨(days.get ⟨f, hf⟩).island,
        (days.get ⟨f, hf⟩).items.eraseIdx p, (days.get ⟨f, hf⟩).transport⟩ ∧
      res.get? (((f : Int) + d).toNat) = some
        ⟨(days.get ⟨((f : Int) + d).toNat, ht⟩).island,
         (days.get ⟨((f : Int) + d).toNat, ht⟩).items ++
           [(days.get ⟨f, hf⟩).items.get ⟨p, hp⟩],
         (days.get ⟨((f : Int) + d).toNat, ht⟩).transport⟩ ∧
      (∀ j : Nat, j ≠ f → j ≠ ((f : Int) + d).toNat → res.get? j = days.get? j) ∧
      totalItems res = totalItems days := by
  have htval : ((((f : Int) + d).toNat : Int)) = (f : Int) + d := Int.toNat_of_nonneg h0
  have htf : ((f : Int) + d).toNat ≠ f := by
    intro heq
    rcases hd with h | h <;> (subst h; omega)
  have hcond : ¬ ((f : Int) + d < 0 ∨ (days.length : Int) ≤ (f : Int) + d) := by
    push_neg
    refine ⟨h0, ?_⟩
    have : ((((f : Int) + d).toNat : Int)) < (days.length : Int) := by
      exact_mod_cast ht
    omega
  have h1 : days.get? f = some (days.get ⟨f, hf⟩) := List.get?_eq_get hf
  have h2 : (days.get ⟨f, hf⟩).items.get? p =
      some ((days.get ⟨f, hf⟩).items.get ⟨p, hp⟩) := List.get?_eq_get hp
  have h3 : (days.set f { days.get ⟨f, hf⟩ with
        items := (days.get ⟨f, hf⟩).items.eraseIdx p }).get? (((f : Int) + d).toNat) =
      some (days.get ⟨((f : Int) + d).toNat, ht⟩) := by
    rw [List.get?_set_ne _ _ (fun h => htf h.symm)]
    exact List.get?_eq_get ht
  simp only [moveItem, if_neg hcond, h1, h2, h3]
  refine ⟨_, rfl, ?_, ?_, ?_, ?_, ?_⟩
  · simp [List.length_set]
  · rw [List.get?_set_ne _ _ htf]
    exact List.get?_set_eq_of_lt _ hf
  · rw [List.get?_set_eq_of_lt _ (by simpa [List.length_set] using ht)]
  · intro j hjf hjt
    rw [List.get?_set_ne _ _ (fun h => hjt h.symm), List.get?_set_ne _ _ (fun h => hjf h.symm)]
  · have e1 := totalItems_set days f
      { days.get ⟨f, hf⟩ with items := (days.get ⟨f, hf⟩).items.eraseIdx p } hf
    have hget : (days.set f { days.get ⟨f, hf⟩ with
          items := (days.get ⟨f, hf⟩).items.eraseIdx p }).get
        ⟨((f : Int) + d).toNat, by simpa [List.length_set] using ht⟩ =
        days.get ⟨((f : Int) + d).toNat, ht⟩ := by
      have := h3
      rwa [List.get?_eq_get (by simpa [List.length_set] using ht), Option.some_inj] at this
    have e2 := totalItems_set
      (days.set f { days.get ⟨f, hf⟩ with items := (days.get ⟨f, hf⟩).items.eraseIdx p })
      (((f : Int) + d).toNat)
      { days.get ⟨((f : Int) + d).toNat, ht⟩ with
          items := (days.get ⟨((f : Int) + d).toNat, ht⟩).items ++
            [(days.get ⟨f, hf⟩).items.get ⟨p, hp⟩] }
      (by simpa [List.length_set] using ht)
    rw [hget] at e2
    have hl1 : ((days.get ⟨f, hf⟩).items.eraseIdx p).length =
        (days.get ⟨f, hf⟩).items.length - 1 := List.length_eraseIdx_of_lt hp
    simp only [List.length_append, List.length_singleton] at e2
    simp only [hl1] at e1 e2
    omega

/-- Witness for the C10 theorem at a concrete two-day itinerary. -/
theorem moveItem_spec_witness :
    (moveItem [⟨"A", [Item.arrival "arr"], "Point-to-Point"⟩, ⟨"B", [], "—"⟩] 0 0 1).isSome =
      true := by
  obtain ⟨res, hres, -⟩ :=
    moveItem_spec [⟨"A", [Item.arrival "arr"], "Point-to-Point"⟩, ⟨"B", [], "—"⟩] 0 0 1
      (by decide) (by decide) (Or.inl rfl) (by decide) (by decide)
  rw [hres]
  rfl

end Andaman
